import Mathlib

/-!
Verification of the codon-classification and population-genetics statistics
engine of the `divergence` repository, together with its alignment trimmer.

The definitions below are shallow embeddings of the Python sources
`calculations.py` (codon classifier, SFS builder, Pi, Theta, DoS, NI
bootstrap) and `align_trim_orthologs.py` (alignment trimmer and the
retention-threshold classification).  Alignments are lists of rows, each a
list of characters; Python dictionaries keyed by minor-allele counts become
association lists; Python floats become rationals; the random source of the
bootstrap becomes an explicit stream of indices; a Python
`ZeroDivisionError` is modelled by `Option.none`.
-/

/-- Site-frequency spectrum: an association list from minor-allele count to
the number of polymorphic sites observed with that count (a Python dict). -/
abbrev Sfs := List (ℕ × ℕ)

/-- Dictionary lookup on an association list (Python `dict[key]`). -/
def sfsLookup (s : Sfs) (k : ℕ) : Option ℕ :=
  match s with
  | [] => none
  | (a, v) :: t => if a = k then some v else sfsLookup t k

/-- Dictionary access with default 0 (Python `dict.get(key, 0)`). -/
def sfsGet (s : Sfs) (k : ℕ) : ℕ := (sfsLookup s k).getD 0

/-- Dictionary assignment `dict[key] = value`: replace the value when the key
is present, append a fresh binding otherwise. -/
def sfsSet (s : Sfs) (k v : ℕ) : Sfs :=
  if (sfsLookup s k).isSome then s.map (fun p => if p.1 = k then (k, v) else p)
  else s ++ [(k, v)]

/-- Embedding of `_update_sfs_with_local_sfs`: add every count of the local
spectrum onto the gene-wide spectrum. -/
def sfsUpdate (s : Sfs) (l : Sfs) : Sfs :=
  l.foldl (fun acc p => sfsSet acc p.1 (sfsGet acc p.1 + p.2)) s

/-- Sum of all counts stored in a spectrum (Python `sum(sfs.values())`). -/
def sfsSum (s : Sfs) : ℕ := (s.map Prod.snd).sum

/-- Key list of a spectrum (Python `dict.keys()`). -/
def sfsKeys (s : Sfs) : List ℕ := s.map Prod.fst

/-- Characters kept by the classifier: the Python deletion set `'ACGTactg'`
of `_perform_calculations` (note that lower-case bases are kept). -/
def validChars : List Char := ['A', 'C', 'G', 'T', 'a', 'c', 't', 'g']

/-- Stop codons of NCBI translation table 11 (`TAA`, `TAG`, `TGA`). -/
def stopCodons : List (List Char) := [['T', 'A', 'A'], ['T', 'A', 'G'], ['T', 'G', 'A']]

/-- Nucleotide alphabet in Biopython order (`IUPACUnambiguousDNA.letters`). -/
def nucLetters : List Char := ['G', 'A', 'T', 'C']

/-- Forward table of NCBI translation table 11: codon to amino acid, `none`
for stop codons and for anything that is not an upper-case codon
(Python `forward_table.get(codon)`). -/
def translateCodon : List Char → Option Char
  | ['T', 'T', 'T'] => some 'F'
  | ['T', 'T', 'C'] => some 'F'
  | ['T', 'T', 'A'] => some 'L'
  | ['T', 'T', 'G'] => some 'L'
  | ['C', 'T', 'T'] => some 'L'
  | ['C', 'T', 'C'] => some 'L'
  | ['C', 'T', 'A'] => some 'L'
  | ['C', 'T', 'G'] => some 'L'
  | ['A', 'T', 'T'] => some 'I'
  | ['A', 'T', 'C'] => some 'I'
  | ['A', 'T', 'A'] => some 'I'
  | ['A', 'T', 'G'] => some 'M'
  | ['G', 'T', 'T'] => some 'V'
  | ['G', 'T', 'C'] => some 'V'
  | ['G', 'T', 'A'] => some 'V'
  | ['G', 'T', 'G'] => some 'V'
  | ['T', 'C', 'T'] => some 'S'
  | ['T', 'C', 'C'] => some 'S'
  | ['T', 'C', 'A'] => some 'S'
  | ['T', 'C', 'G'] => some 'S'
  | ['C', 'C', 'T'] => some 'P'
  | ['C', 'C', 'C'] => some 'P'
  | ['C', 'C', 'A'] => some 'P'
  | ['C', 'C', 'G'] => some 'P'
  | ['A', 'C', 'T'] => some 'T'
  | ['A', 'C', 'C'] => some 'T'
  | ['A', 'C', 'A'] => some 'T'
  | ['A', 'C', 'G'] => some 'T'
  | ['G', 'C', 'T'] => some 'A'
  | ['G', 'C', 'C'] => some 'A'
  | ['G', 'C', 'A'] => some 'A'
  | ['G', 'C', 'G'] => some 'A'
  | ['T', 'A', 'T'] => some 'Y'
  | ['T', 'A', 'C'] => some 'Y'
  | ['C', 'A', 'T'] => some 'H'
  | ['C', 'A', 'C'] => some 'H'
  | ['C', 'A', 'A'] => some 'Q'
  | ['C', 'A', 'G'] => some 'Q'
  | ['A', 'A', 'T'] => some 'N'
  | ['A', 'A', 'C'] => some 'N'
  | ['A', 'A', 'A'] => some 'K'
  | ['A', 'A', 'G'] => some 'K'
  | ['G', 'A', 'T'] => some 'D'
  | ['G', 'A', 'C'] => some 'D'
  | ['G', 'A', 'A'] => some 'E'
  | ['G', 'A', 'G'] => some 'E'
  | ['T', 'G', 'T'] => some 'C'
  | ['T', 'G', 'C'] => some 'C'
  | ['T', 'G', 'G'] => some 'W'
  | ['C', 'G', 'T'] => some 'R'
  | ['C', 'G', 'C'] => some 'R'
  | ['C', 'G', 'A'] => some 'R'
  | ['C', 'G', 'G'] => some 'R'
  | ['A', 'G', 'T'] => some 'S'
  | ['A', 'G', 'C'] => some 'S'
  | ['A', 'G', 'A'] => some 'R'
  | ['A', 'G', 'G'] => some 'R'
  | ['G', 'G', 'T'] => some 'G'
  | ['G', 'G', 'C'] => some 'G'
  | ['G', 'G', 'A'] => some 'G'
  | ['G', 'G', 'G'] => some 'G'
  | _ => none

/-- Embedding of `_four_fold_degenerate_patterns`: the two-letter prefixes,
drawn from the nucleotide alphabet only, whose four third-position codons
all translate to the same single amino acid. -/
def fourFoldPrefixes : List (Char × Char) :=
  ((nucLetters.map (fun c1 => nucLetters.map (fun c2 => (c1, c2)))).flatten).filter
    (fun p => decide ((nucLetters.map (fun c3 => translateCodon [p.1, p.2, c3])).dedup.length = 1))

/-- Embedding of `re.match(FOUR_FOLD_DEGENERATE_PATTERN, codon)`: the codon
starts with one of the generated upper-case prefixes followed by a
nucleotide letter. -/
def matchesFourFold : List Char → Bool
  | c1 :: c2 :: c3 :: _ => decide ((c1, c2) ∈ fourFoldPrefixes) && decide (c3 ∈ nucLetters)
  | _ => false

/-- Classifier accumulator: the three gene-wide spectra and the site and
codon counters of `_perform_calculations`. -/
structure ClassifyState where
  synSfs : Sfs
  fourFoldSfs : Sfs
  nonSynSfs : Sfs
  fourFoldSites : ℕ
  multipleSitePolymorphisms : ℕ
  mixedPolymorphisms : ℕ
deriving DecidableEq

/-- Initial accumulator of `_perform_calculations`: empty spectra, zero
counters. -/
def initState : ClassifyState := ⟨[], [], [], 0, 0, 0⟩

/-- Column-exclusion guard of `_perform_calculations`: some codon holds a
character outside `'ACGTactg'` (gap or ambiguous base), or some codon is a
stop codon. -/
def excludedColumn (col : List (List Char)) : Bool :=
  decide (0 < (col.flatten.filter (fun ch => decide (ch ∉ validChars))).length) ||
    col.any (fun c => decide (c ∈ stopCodons))

/-- Per-row translations of a codon column. -/
def translations (col : List (List Char)) : List (Option Char) := col.map translateCodon

/-- Synonymy test of `_perform_calculations`: one distinct translation, and
as many translations as rows (the second conjunct mirrors the source). -/
def columnSynonymous (col : List (List Char)) : Bool :=
  decide ((translations col).dedup.length = 1) && decide ((translations col).length = col.length)

/-- Intra-codon site `j` of a column: the `j`-th character of every row. -/
def siteAt (col : List (List Char)) (j : ℕ) : List Char := col.map (fun c => c.getD j '?')

/-- A site is polymorphic when it holds more than one distinct nucleotide. -/
def sitePoly (col : List (List Char)) (j : ℕ) : Bool :=
  decide (1 < (siteAt col j).dedup.length)

/-- Exactly-one-of-three test of `_perform_calculations` (boolean xor of the
three flags, and not all three). -/
def singleSitePoly (col : List (List Char)) : Bool :=
  Bool.xor (Bool.xor (sitePoly col 0) (sitePoly col 1)) (sitePoly col 2) &&
    !(sitePoly col 0 && sitePoly col 1 && sitePoly col 2)

/-- The site usage whose single site is polymorphic, chosen as in the source:
site 1 if polymorphic, else site 2 if polymorphic, else site 3. -/
def polymorphSite (col : List (List Char)) : List Char :=
  if sitePoly col 0 then siteAt col 0
  else if sitePoly col 1 then siteAt col 1
  else siteAt col 2

/-- Multiset of allele counts at a site (values of the Python usage dict). -/
def usageValues (site : List Char) : List ℕ := site.dedup.map (fun c => site.count c)

/-- Maximum of a list of naturals (Python `max` over the usage values). -/
def listMax (vals : List ℕ) : ℕ := vals.foldr max 0

/-- Local spectrum before reference removal: each allele count mapped to the
number of alleles observed that many times. -/
def localSfs (vals : List ℕ) : Sfs := vals.dedup.map (fun t => (t, vals.count t))

/-- Reference-allele removal: decrement the bucket at the reference count,
deleting it when it reaches zero. -/
def removeReference (s : Sfs) (ref : ℕ) : Sfs :=
  if sfsGet s ref - 1 = 0 then s.filter (fun p => decide (p.1 ≠ ref))
  else sfsSet s ref (sfsGet s ref - 1)

/-- Local site-frequency spectrum of a column, after reference removal. -/
def localSpectrum (col : List (List Char)) : Sfs :=
  removeReference (localSfs (usageValues (polymorphSite col)))
    (listMax (usageValues (polymorphSite col)))

/-- Per-column step of `_perform_calculations`: exclusion, monomorphic
four-fold tally, multiple-site tally, and the synonymous, four-fold,
non-synonymous and complex cases. -/
def classifyCodon (state : ClassifyState) (col : List (List Char)) : ClassifyState :=
  if excludedColumn col then state
  else if !(sitePoly col 0 || sitePoly col 1 || sitePoly col 2) then
    if matchesFourFold (col.headD []) then
      { state with fourFoldSites := state.fourFoldSites + 1 }
    else state
  else if !singleSitePoly col then
    { state with multipleSitePolymorphisms := state.multipleSitePolymorphisms + 1 }
  else if columnSynonymous col then
    if sitePoly col 2 && matchesFourFold (col.headD []) then
      { state with synSfs := sfsUpdate state.synSfs (localSpectrum col),
                   fourFoldSfs := sfsUpdate state.fourFoldSfs (localSpectrum col),
                   fourFoldSites := state.fourFoldSites + 1 }
    else { state with synSfs := sfsUpdate state.synSfs (localSpectrum col) }
  else if (polymorphSite col).dedup.length = (translations col).dedup.length then
    { state with nonSynSfs := sfsUpdate state.nonSynSfs (localSpectrum col) }
  else
    { state with mixedPolymorphisms := state.mixedPolymorphisms + 1 }

/-- Alignment length truncated to a multiple of three
(`len(alignment[0]) - len(alignment[0]) % 3`). -/
def truncLen (rows : List (List Char)) : ℕ :=
  (rows.headD []).length - (rows.headD []).length % 3

/-- The codon columns scanned by `_perform_calculations`: triplet slices at
offsets `0, 3, 6, ...` within the truncated length. -/
def codonColumns (rows : List (List Char)) : List (List (List Char)) :=
  (List.range (truncLen rows / 3)).map (fun k => rows.map (fun r => (r.drop (3 * k)).take 3))

/-- Classification pass of `_perform_calculations` over a clade-restricted
alignment. -/
def performCalculations (rows : List (List Char)) : ClassifyState :=
  (codonColumns rows).foldl classifyCodon initState

/-- The `codons` column of the output (`sequence_lengths // 3`); it counts
every codon column of the truncated alignment, excluded ones included. -/
def computedCodons (rows : List (List Char)) : ℕ := truncLen rows / 3

/-- Embedding of `_calc_pi`: nucleotide diversity from a site-frequency
spectrum; the summation runs over `range(1, (n - 1) // 2 + 1)`. -/
def calcPi (nrOfStrains : ℕ) (sequenceLengths : ℕ) (sfs : Sfs) : ℚ :=
  ((nrOfStrains : ℚ) / ((nrOfStrains : ℚ) - 1) *
      (((List.range' 1 ((nrOfStrains - 1) / 2)).map
          (fun i => (sfsGet sfs i : ℚ) * 2 * (i : ℚ) / (nrOfStrains : ℚ) *
            (1 - (i : ℚ) / (nrOfStrains : ℚ)))).sum)) /
    (sequenceLengths : ℚ)

/-- Direction of selection from `_compute_values_from_statistics`:
`Dn/(Dn+Ds) - Pn/(Pn+Ps)` guarded by both denominators, `none` when either
denominator is zero. -/
def dosValue (dn ds : ℚ) (nonSynSfs synSfs : Sfs) : Option ℚ :=
  if dn + ds ≠ 0 ∧ sfsSum nonSynSfs + sfsSum synSfs ≠ 0 then
    some (dn / (dn + ds) -
      (sfsSum nonSynSfs : ℚ) / ((sfsSum nonSynSfs : ℚ) + (sfsSum synSfs : ℚ)))
  else none

/-- Hidden neutrality-index components of one ortholog row:
`Ds*Pn/(Ps+Ds)` and `Dn*Ps/(Ps+Ds)`, each `none` when undefined. -/
structure CompValues where
  dspn : Option ℚ
  dnps : Option ℚ
deriving DecidableEq, Inhabited

/-- Python truthiness sum `sum(v for v in values if v)`: `None` and `0` both
drop out. -/
def truthySum (values : List (Option ℚ)) : ℚ :=
  (((values.filterMap id).filter (fun v => decide (v ≠ 0)))).sum

/-- Neutrality index of one bootstrap resample: the truthy sum of the `X`
components over the truthy sum of the `Y` components; `none` models the
unguarded `ZeroDivisionError` of `_bootstrap`. -/
def sampleNI (samples : List CompValues) : Option ℚ :=
  if truthySum (samples.map CompValues.dnps) = 0 then none
  else some (truthySum (samples.map CompValues.dspn) / truthySum (samples.map CompValues.dnps))

/-- Resample number `k`: `records.length` draws with replacement, the draw
for position `j` taken from the injected random stream at `k * N + j`. -/
def resampleAt (records : List CompValues) (rand : ℕ → ℕ) (k : ℕ) : List CompValues :=
  (List.range records.length).map
    (fun j => records.getD (rand (k * records.length + j) % records.length) default)

/-- First `n` bootstrap neutrality-index values, `none` as soon as one
resample divides by zero. -/
def niValuesAux (records : List CompValues) (rand : ℕ → ℕ) : ℕ → Option (List ℚ)
  | 0 => some []
  | Nat.succ k =>
    match niValuesAux records rand k, sampleNI (resampleAt records rand k) with
    | some acc, some v => some (acc ++ [v])
    | _, _ => none

/-- The `N = len(comp_values_list)` bootstrap neutrality-index values. -/
def niValues (records : List CompValues) (rand : ℕ → ℕ) : Option (List ℚ) :=
  niValuesAux records rand records.length

/-- Lower 95% rank `int(round(0.025 * (N - 1)))`. -/
def lowerRank (n : ℕ) : ℕ := (round ((1 / 40 : ℚ) * ((n : ℚ) - 1))).toNat

/-- Upper 95% rank `int(round(0.975 * (N - 1)))`. -/
def upperRank (n : ℕ) : ℕ := (round ((39 / 40 : ℚ) * ((n : ℚ) - 1))).toNat

/-- Embedding of `_bootstrap`: N resamples of size N, neutrality index per
resample, values sorted, and the pair at the two 95% ranks; `none` when some
resample raises the unguarded division by zero. -/
def bootstrapLimits (records : List CompValues) (rand : ℕ → ℕ) : Option (ℚ × ℚ) :=
  match niValues records rand with
  | none => none
  | some vals =>
    some ((List.insertionSort (· ≤ ·) vals).getD (lowerRank records.length) 0,
      (List.insertionSort (· ≤ ·) vals).getD (upperRank records.length) 0)

/-- Trim outcome of `_trim_alignment`: trimmed rows, original length,
trimmed length and retained percentage. -/
structure TrimResult where
  trimmed : List (List Char)
  originalLength : ℕ
  trimmedLength : ℕ
  retainedPct : ℚ
deriving DecidableEq

/-- Gap test of one codon column of the trimmer: a `'-'` occurs in the
concatenation of the three-character slices of all rows at offset `i`. -/
def columnHasGap (rows : List (List Char)) (i : ℕ) : Bool :=
  decide ('-' ∈ (rows.map (fun r => (r.drop i).take 3)).flatten)

/-- One step of the first/last fully-resolved bookkeeping of
`_trim_alignment`: a gapped column is skipped; the first resolved column
sets the start, every later resolved column moves the end past itself. -/
def trimStep (rows : List (List Char)) (acc : Option ℕ × Option ℕ) (k : ℕ) :
    Option ℕ × Option ℕ :=
  if columnHasGap rows (3 * k) then acc
  else
    match acc.1 with
    | none => (some (3 * k), acc.2)
    | some _ => (acc.1, some (3 * k + 3))

/-- First fully-resolved codon start and last fully-resolved codon end of
`_trim_alignment`, each `None` when never assigned. -/
def trimBounds (rows : List (List Char)) : Option ℕ × Option ℕ :=
  (List.range ((rows.headD []).length / 3)).foldl (trimStep rows) (none, none)

/-- Python slice `row[a:b]` with optional bounds: a missing start means 0, a
missing stop means the row length. -/
def pySlice (r : List Char) (a b : Option ℕ) : List Char :=
  (r.take (b.getD r.length)).drop (a.getD 0)

/-- The trimmed rows `alignment[:, first_full_codon_start:last_full_codon_end]`. -/
def trimmedRows (rows : List (List Char)) : List (List Char) :=
  rows.map (fun r => pySlice r (trimBounds rows).1 (trimBounds rows).2)

/-- Gap-run test of the trimmer policy filter: `'-' * maxIndel in row`. -/
def hasGapRunGe (r : List Char) (maxIndel : ℕ) : Bool :=
  (List.range (r.length + 1)).any
    (fun s => decide ((r.drop s).take maxIndel = List.replicate maxIndel '-'))

/-- Embedding of `_trim_alignment`: slice between the tracked bounds, then
the indel policy filter that overrides length and percentage with zero. -/
def trimAlignment (rows : List (List Char)) (maxIndel : ℕ) : TrimResult :=
  if (trimmedRows rows).any (fun r => hasGapRunGe r maxIndel) then
    { trimmed := trimmedRows rows, originalLength := (rows.headD []).length,
      trimmedLength := 0, retainedPct := 0 }
  else
    { trimmed := trimmedRows rows, originalLength := (rows.headD []).length,
      trimmedLength := ((trimmedRows rows).headD []).length,
      retainedPct := (((trimmedRows rows).headD []).length : ℚ) /
        ((rows.headD []).length : ℚ) * 100 }

/-- Classification of `_trim_alignments`: an ortholog is misaligned exactly
when the configured threshold exceeds its retained percentage. -/
def isMisaligned (threshold pct : ℚ) : Bool := decide (pct < threshold)

/-! ## Helper lemmas and claim theorems -/

/-- C1: the claim asserts that for n = 4 strains, sequence length 100, one
synonymous doubleton and no non-synonymous polymorphism, the computed
nucleotide diversity equals `(4/3 * 1*2*(2/4)*(1 - 2/4)) / 100`; the code
sums only over `range(1, (4 - 1) // 2 + 1) = [1]`, so the doubleton bucket
never contributes and the computed value differs from the claimed one. -/
theorem calcPi_doubleton_counterexample :
    calcPi 4 100 (sfsUpdate [(2, 1)] []) ≠ 4 / 3 * (1 * 2 * (2 / 4) * (1 - 2 / 4)) / 100 := by
  norm_num [calcPi, sfsUpdate, sfsGet, sfsLookup, List.range']

/-- C1 (amended): for n = 4 strains, sequence length 100, a synonymous SFS
holding exactly one doubleton, and an empty non-synonymous SFS, the combined
polymorphism spectrum is `{2: 1}` and `_calc_pi` returns 0, because its
summation runs over minor-allele counts 1 to `(n - 1) // 2 = 1` only. -/
theorem calcPi_doubleton_value :
    calcPi 4 100 (sfsUpdate [(2, 1)] []) = 0 := by
  norm_num [calcPi, sfsUpdate, sfsGet, sfsLookup, List.range']

/-- C2: on the valid codon alignment `AAA---` / `AAA---` (first codon column
fully resolved, second fully gapped) with `max_indel_length = 10`, exactly
one fully-resolved codon column exists, yet `_trim_alignment` keeps the
whole alignment: `last_full_codon_end` is never assigned, so the Python
slice `alignment[:, first:None]` runs to the end.  The claim demands the
trimmed alignment be exactly the single resolved codon column (length 3);
the code returns length 6 and the untouched rows. -/
theorem trim_single_resolved_column_bug :
    (trimAlignment [['A', 'A', 'A', '-', '-', '-'], ['A', 'A', 'A', '-', '-', '-']] 10).trimmedLength = 6 ∧
      (trimAlignment [['A', 'A', 'A', '-', '-', '-'], ['A', 'A', 'A', '-', '-', '-']] 10).trimmed =
        [['A', 'A', 'A', '-', '-', '-'], ['A', 'A', 'A', '-', '-', '-']] := by
  decide

/-- C3: `_bootstrap` divides `sum_dspn / sum_dnps` without a guard.  With
two ortholog records, one with defined components and one with both
components `None`, a random stream that always draws the second record gives
a resample whose `Dn*Ps/(Ps+Ds)` sum is zero, and the division raises an
uncaught `ZeroDivisionError` (modelled by `none`). -/
theorem bootstrap_zero_division :
    niValues [⟨some 1, some 2⟩, ⟨none, none⟩] (fun _ => 1) = none ∧
      bootstrapLimits [⟨some 1, some 2⟩, ⟨none, none⟩] (fun _ => 1) = none := by
  constructor
  · decide
  · decide

/-- C6: the claim quantifies over every record list and every sequence of
random draws, but a draw sequence that resamples only records with falsy
`Dn*Ps/(Ps+Ds)` makes `_bootstrap` divide by zero, so no pair of bounds is
returned at all (modelled by `none`). -/
theorem bootstrap_limits_counterexample :
    bootstrapLimits [⟨some 3, none⟩] (fun _ => 0) = none := by
  decide

/-- C7: a column of gap codons is excluded, and a column of lower-case stop
codons (`taa`/`tga`) is not excluded at all: the deletion set `'ACGTactg'`
keeps lower-case bases and the stop-codon test compares against upper-case
stop codons only.  On `---taa` / `---tga` the claim demands that both
columns (gaps; non-A/C/G/T characters that are also stop codons) contribute
to no SFS and no counter, yet the code records a synonymous singleton and
counts both codon columns in the total-codon counter. -/
theorem excluded_column_counterexample :
    (performCalculations [['-', '-', '-', 't', 'a', 'a'], ['-', '-', '-', 't', 'g', 'a']]).synSfs =
        [(1, 1)] ∧
      computedCodons [['-', '-', '-', 't', 'a', 'a'], ['-', '-', '-', 't', 'g', 'a']] = 2 := by
  constructor
  · decide
  · decide

/-- C4: with retention threshold 0 an alignment forced to retained
percentage 0 by the indel filter is still accepted (`retained_threshold <=
tpl[3]` holds at `0 <= 0`), so it is not classified misaligned regardless of
the threshold, contradicting the claim. -/
theorem indel_filter_threshold_zero_counterexample :
    (trimAlignment [['A', 'A', 'A', '-', '-', '-', 'A', 'A', 'A'],
        ['A', 'A', 'A', '-', '-', '-', 'A', 'A', 'A']] 3).retainedPct = 0 ∧
      isMisaligned 0
        ((trimAlignment [['A', 'A', 'A', '-', '-', '-', 'A', 'A', 'A'],
          ['A', 'A', 'A', '-', '-', '-', 'A', 'A', 'A']] 3).retainedPct) = false := by
  constructor
  · decide
  · decide

/-- C10: with `max_indel_length = 0` the policy filter `'-' * 0 in seq`
matches every sequence (the empty string is a substring of anything), so
even a gap-free alignment is overridden to retained percentage 0 instead of
the claimed 100. -/
theorem gap_free_indel_zero_counterexample :
    (trimAlignment [['A', 'A', 'A'], ['C', 'C', 'C']] 0).retainedPct ≠ 100 := by
  decide

/-- C5: the per-ortholog direction of selection is defined as
`Dn/(Dn+Ds) - Pn/(Pn+Ps)` with `Pn`, `Ps` the sums of the non-synonymous and
synonymous spectra, and it is `None` exactly when `Dn+Ds = 0` or
`Pn+Ps = 0`; otherwise it is the (finite) rational given by the formula. -/
theorem dos_defined_iff (dn ds : ℚ) (nonSyn syn : Sfs) :
    (dosValue dn ds nonSyn syn = none ↔ dn + ds = 0 ∨ sfsSum nonSyn + sfsSum syn = 0) ∧
    (dn + ds ≠ 0 → sfsSum nonSyn + sfsSum syn ≠ 0 →
      dosValue dn ds nonSyn syn =
        some (dn / (dn + ds) -
          (sfsSum nonSyn : ℚ) / ((sfsSum nonSyn : ℚ) + (sfsSum syn : ℚ)))) := by
  refine ⟨?_, fun h1 h2 => ?_⟩
  · by_cases h1 : dn + ds = 0
    · simp [dosValue, h1]
    · by_cases h2 : sfsSum nonSyn + sfsSum syn = 0
      · simp [dosValue, h1, h2]
      · simp [dosValue, h1, h2]
  · simp [dosValue, h1, h2]

/-- Witness for `dos_defined_iff` at `Dn = 2`, `Ds = 1`, `Pn = 3`, `Ps = 1`. -/
theorem dos_defined_iff_witness :
    dosValue 2 1 [(1, 3)] [(1, 1)] =
      some (2 / (2 + 1) - (sfsSum [(1, 3)] : ℚ) / ((sfsSum [(1, 3)] : ℚ) + (sfsSum [(1, 1)] : ℚ))) :=
  (dos_defined_iff 2 1 [(1, 3)] [(1, 1)]).2 (by norm_num) (by decide)

/-- C9: a monomorphic codon column whose codon matches a four-fold
degenerate prefix increments the four-fold site counter and changes nothing
else; a synonymous column whose single polymorphic position is the third
codon position and whose codon matches the pattern merges the local spectrum
into both the synonymous and the four-fold SFS and increments the four-fold
site counter. -/
theorem fourfold_site_counting (state : ClassifyState) (col : List (List Char)) :
    (excludedColumn col = false → sitePoly col 0 = false → sitePoly col 1 = false →
      sitePoly col 2 = false → matchesFourFold (col.headD []) = true →
      classifyCodon state col = { state with fourFoldSites := state.fourFoldSites + 1 }) ∧
    (excludedColumn col = false → columnSynonymous col = true → sitePoly col 0 = false →
      sitePoly col 1 = false → sitePoly col 2 = true → matchesFourFold (col.headD []) = true →
      classifyCodon state col =
        { state with synSfs := sfsUpdate state.synSfs (localSpectrum col),
                     fourFoldSfs := sfsUpdate state.fourFoldSfs (localSpectrum col),
                     fourFoldSites := state.fourFoldSites + 1 }) := by
  constructor
  · intro he h0 h1 h2 hm
    have hm2 : matchesFourFold (col.head?.getD []) = true := by simpa using hm
    simp [classifyCodon, he, h0, h1, h2, hm2]
  · intro he hs h0 h1 h2 hm
    have hm2 : matchesFourFold (col.head?.getD []) = true := by simpa using hm
    simp [classifyCodon, singleSitePoly, he, hs, h0, h1, h2, hm2]

/-- Witness for `fourfold_site_counting`: the monomorphic column `GGA`/`GGA`
and the third-position-polymorphic column `GGA`/`GGG`. -/
theorem fourfold_site_counting_witness :
    classifyCodon initState [['G', 'G', 'A'], ['G', 'G', 'A']] =
      { initState with fourFoldSites := initState.fourFoldSites + 1 } ∧
    classifyCodon initState [['G', 'G', 'A'], ['G', 'G', 'G']] =
      { initState with
          synSfs := sfsUpdate initState.synSfs (localSpectrum [['G', 'G', 'A'], ['G', 'G', 'G']]),
          fourFoldSfs :=
            sfsUpdate initState.fourFoldSfs (localSpectrum [['G', 'G', 'A'], ['G', 'G', 'G']]),
          fourFoldSites := initState.fourFoldSites + 1 } :=
  ⟨(fourfold_site_counting initState [['G', 'G', 'A'], ['G', 'G', 'A']]).1 (by decide) (by decide)
      (by decide) (by decide) (by decide),
    (fourfold_site_counting initState [['G', 'G', 'A'], ['G', 'G', 'G']]).2 (by decide) (by decide)
      (by decide) (by decide) (by decide) (by decide)⟩

/-- C7 (amended): a codon column is skipped exactly when some codon holds a
character outside the retained set `'ACGTactg'` or some codon is one of the
upper-case stop codons; a skipped column leaves the whole accumulator
(spectra and counters) unchanged; the `codons` output, however, counts every
codon column of the truncated alignment, skipped ones included. -/
theorem excluded_column_semantics (state : ClassifyState) (col : List (List Char)) :
    (excludedColumn col = true ↔
      (∃ c ∈ col, ∃ ch ∈ c, ch ∉ validChars) ∨ ∃ c ∈ col, c ∈ stopCodons) ∧
    (excludedColumn col = true → classifyCodon state col = state) ∧
    (∀ rows : List (List Char), computedCodons rows = (codonColumns rows).length) := by
  refine ⟨?_, fun h => ?_, fun rows => ?_⟩
  · unfold excludedColumn
    rw [Bool.or_eq_true, decide_eq_true_eq, List.any_eq_true]
    constructor
    · rintro (h | ⟨c, hc, hdec⟩)
      · obtain ⟨ch, hch⟩ := List.exists_mem_of_ne_nil _ (List.length_pos.mp h)
        have hm := List.mem_filter.mp hch
        obtain ⟨c, hc, hc2⟩ := List.mem_flatten.mp hm.1
        exact Or.inl ⟨c, hc, ch, hc2, of_decide_eq_true hm.2⟩
      · exact Or.inr ⟨c, hc, of_decide_eq_true hdec⟩
    · rintro (⟨c, hc, ch, hch, hv⟩ | ⟨c, hc, hs2⟩)
      · left
        have hmem : ch ∈ col.flatten.filter (fun ch => decide (ch ∉ validChars)) :=
          List.mem_filter.mpr ⟨List.mem_flatten.mpr ⟨c, hc, hch⟩, decide_eq_true hv⟩
        exact List.length_pos.mpr (List.ne_nil_of_mem hmem)
      · exact Or.inr ⟨c, hc, decide_eq_true hs2⟩
  · simp [classifyCodon, h]
  · simp [computedCodons, codonColumns]

/-- Witness for `excluded_column_semantics`: a fully gapped one-row column
is skipped without touching the accumulator. -/
theorem excluded_column_semantics_witness :
    classifyCodon initState [['-', '-', '-']] = initState :=
  (excluded_column_semantics initState [['-', '-', '-']]).2.1 (by decide)

/-- C4 (amended): whenever some trimmed row contains a gap run of length at
least `max_indel_length`, the trimmer overrides the outcome to trimmed
length 0 and retained percentage 0, and the ortholog is classified
misaligned for every positive configured threshold (at threshold zero or
below it is accepted, as the counterexample shows). -/
theorem indel_filter_override (rows : List (List Char)) (maxIndel : ℕ) (threshold : ℚ)
    (hgap : (trimmedRows rows).any (fun r => hasGapRunGe r maxIndel) = true)
    (hpos : 0 < threshold) :
    (trimAlignment rows maxIndel).trimmedLength = 0 ∧
    (trimAlignment rows maxIndel).retainedPct = 0 ∧
    isMisaligned threshold ((trimAlignment rows maxIndel).retainedPct) = true := by
  have h : trimAlignment rows maxIndel =
      { trimmed := trimmedRows rows, originalLength := (rows.headD []).length,
        trimmedLength := 0, retainedPct := 0 } := by
    simp only [trimAlignment, hgap, if_true]
  rw [h]
  exact ⟨rfl, rfl, by simp [isMisaligned, hpos]⟩

/-- Witness for `indel_filter_override`: a nine-column alignment whose
middle codon is a shared gap run of length three, with threshold 50. -/
theorem indel_filter_override_witness :
    (trimAlignment [['A', 'A', 'A', '-', '-', '-', 'A', 'A', 'A'],
        ['A', 'A', 'A', '-', '-', '-', 'A', 'A', 'A']] 3).trimmedLength = 0 ∧
    (trimAlignment [['A', 'A', 'A', '-', '-', '-', 'A', 'A', 'A'],
        ['A', 'A', 'A', '-', '-', '-', 'A', 'A', 'A']] 3).retainedPct = 0 ∧
    isMisaligned 50
      ((trimAlignment [['A', 'A', 'A', '-', '-', '-', 'A', 'A', 'A'],
        ['A', 'A', 'A', '-', '-', '-', 'A', 'A', 'A']] 3).retainedPct) = true :=
  indel_filter_override _ 3 50 (by decide) (by norm_num)

/-- A gap-free alignment has no gapped codon column. -/
theorem columnHasGap_eq_false_of_no_gap (rows : List (List Char))
    (hnogap : ∀ r ∈ rows, '-' ∉ r) (i : ℕ) : columnHasGap rows i = false := by
  rw [columnHasGap, decide_eq_false_iff_not]
  intro hmem
  obtain ⟨l, hl, hc⟩ := List.mem_flatten.mp hmem
  obtain ⟨r, hr, rfl⟩ := List.mem_map.mp hl
  exact hnogap r hr (List.mem_of_mem_drop (List.mem_of_mem_take hc))

/-- Closed form of the first/last bookkeeping when every codon column is
fully resolved: the first bound is column 0 and the last bound is the end of
the final column, except that a single column leaves the last bound
unassigned. -/
theorem foldl_trimStep_resolved (rows : List (List Char))
    (hgap : ∀ i, columnHasGap rows i = false) (m : ℕ) :
    (List.range (m + 1)).foldl (trimStep rows) (none, none) =
      (some 0, if m = 0 then none else some (3 * m + 3)) := by
  induction m with
  | zero => simp [List.range_succ, trimStep, hgap 0]
  | succ k ih =>
    rw [List.range_succ, List.foldl_append, ih]
    by_cases hk : k = 0 <;> simp [hk, trimStep, hgap]

/-- On a gap-free alignment of codon shape the trimmer slice keeps every
row unchanged. -/
theorem trimmedRows_gap_free (rows : List (List Char))
    (hnogap : ∀ r ∈ rows, '-' ∉ r)
    (hlen : ∀ r ∈ rows, r.length = (rows.headD []).length)
    (hmul : (rows.headD []).length % 3 = 0)
    (hpos : (rows.headD []).length ≠ 0) :
    trimmedRows rows = rows := by
  have hgap : ∀ i, columnHasGap rows i = false := columnHasGap_eq_false_of_no_gap rows hnogap
  have h3 : (rows.headD []).length / 3 * 3 = (rows.headD []).length :=
    Nat.div_mul_cancel (Nat.dvd_of_mod_eq_zero hmul)
  obtain ⟨m, hm⟩ : ∃ m, (rows.headD []).length / 3 = m + 1 :=
    ⟨(rows.headD []).length / 3 - 1, by omega⟩
  have hbounds : trimBounds rows = (some 0, if m = 0 then none else some (3 * m + 3)) := by
    rw [trimBounds, hm]
    exact foldl_trimStep_resolved rows hgap m
  have hL : 3 * m + 3 = (rows.headD []).length := by omega
  unfold trimmedRows
  rw [hbounds]
  conv_rhs => rw [← List.map_id rows]
  apply List.map_congr_left
  intro r hr
  by_cases hm0 : m = 0
  · simp [hm0, pySlice, List.take_length]
  · simp only [hm0, if_neg, pySlice, Option.getD_some, Option.getD_none, id_eq, if_false]
    rw [hL, ← hlen r hr, List.take_length, List.drop_zero]

/-- A gap-free row contains no gap run of positive length. -/
theorem hasGapRunGe_eq_false_of_no_gap (r : List Char) (m : ℕ) (hm : 1 ≤ m)
    (h : '-' ∉ r) : hasGapRunGe r m = false := by
  rw [hasGapRunGe, List.any_eq_false]
  intro s _
  intro hdec
  have heq := of_decide_eq_true hdec
  apply h
  have hmem : '-' ∈ (r.drop s).take m := by
    rw [heq]
    exact List.mem_replicate.mpr ⟨by omega, rfl⟩
  exact List.mem_of_mem_drop (List.mem_of_mem_take hmem)

/-- C10 (amended): for every valid codon alignment of nonzero length that
contains no gap character, and every `max_indel_length >= 1`, the trimmer
returns the original length and 100% retention (at `max_indel_length = 0`
the policy filter matches the empty gap run and overrides the result, as
the counterexample shows). -/
theorem trim_gap_free_retains_all (rows : List (List Char)) (maxIndel : ℕ)
    (hmi : 1 ≤ maxIndel) (hnogap : ∀ r ∈ rows, '-' ∉ r)
    (hlen : ∀ r ∈ rows, r.length = (rows.headD []).length)
    (hmul : (rows.headD []).length % 3 = 0)
    (hpos : (rows.headD []).length ≠ 0) :
    (trimAlignment rows maxIndel).trimmedLength = (trimAlignment rows maxIndel).originalLength ∧
    (trimAlignment rows maxIndel).retainedPct = 100 := by
  have htr : trimmedRows rows = rows := trimmedRows_gap_free rows hnogap hlen hmul hpos
  have hany : (trimmedRows rows).any (fun r => hasGapRunGe r maxIndel) = false := by
    rw [htr, List.any_eq_false]
    intro r hr
    simp [hasGapRunGe_eq_false_of_no_gap r maxIndel hmi (hnogap r hr)]
  rw [trimAlignment, if_neg (by simp [hany])]
  refine ⟨?_, ?_⟩
  · show ((trimmedRows rows).headD []).length = (rows.headD []).length
    rw [htr]
  · show (((trimmedRows rows).headD []).length : ℚ) / ((rows.headD []).length : ℚ) * 100 = 100
    rw [htr, div_self (Nat.cast_ne_zero.mpr hpos), one_mul]

/-- Witness for `trim_gap_free_retains_all`: the gap-free alignment
`AAA` / `CCC` with `max_indel_length = 1`. -/
theorem trim_gap_free_retains_all_witness :
    (trimAlignment [['A', 'A', 'A'], ['C', 'C', 'C']] 1).trimmedLength =
        (trimAlignment [['A', 'A', 'A'], ['C', 'C', 'C']] 1).originalLength ∧
    (trimAlignment [['A', 'A', 'A'], ['C', 'C', 'C']] 1).retainedPct = 100 :=
  trim_gap_free_retains_all [['A', 'A', 'A'], ['C', 'C', 'C']] 1 (by decide) (by decide)
    (by decide) (by decide) (by decide)

/-- Rounding of rationals is monotone. -/
theorem rat_round_mono {x y : ℚ} (h : x ≤ y) : round x ≤ round y := by
  rw [round_eq, round_eq]
  exact Int.floor_le_floor (by linarith)

/-- The lower 95% rank never exceeds the upper 95% rank. -/
theorem lowerRank_le_upperRank (n : ℕ) (hn : 1 ≤ n) : lowerRank n ≤ upperRank n := by
  unfold lowerRank upperRank
  apply Int.toNat_le_toNat
  apply rat_round_mono
  have h0 : (0 : ℚ) ≤ (n : ℚ) - 1 := by
    have h1 : (1 : ℚ) ≤ (n : ℚ) := by exact_mod_cast hn
    linarith
  nlinarith

/-- The upper 95% rank stays inside the list of `n` bootstrap values. -/
theorem upperRank_lt (n : ℕ) (hn : 1 ≤ n) : upperRank n < n := by
  unfold upperRank
  have h0 : (0 : ℚ) ≤ (n : ℚ) - 1 := by
    have h1 : (1 : ℚ) ≤ (n : ℚ) := by exact_mod_cast hn
    linarith
  have h1 : (39 / 40 : ℚ) * ((n : ℚ) - 1) ≤ (n : ℚ) - 1 := by nlinarith
  have h2 := rat_round_mono h1
  have h5 : round ((n : ℚ) - 1) = (n : ℤ) - 1 := by
    rw [show ((n : ℚ) - 1) = (((n : ℤ) - 1 : ℤ) : ℚ) by push_cast; ring, round_intCast]
  rw [h5] at h2
  have h4 := Int.toNat_le_toNat h2
  omega

/-- Each successful prefix of the bootstrap loop yields exactly one
neutrality-index value per resample. -/
theorem niValuesAux_length (records : List CompValues) (rand : ℕ → ℕ) :
    ∀ (n : ℕ) (l : List ℚ), niValuesAux records rand n = some l → l.length = n := by
  intro n
  induction n with
  | zero =>
    intro l h
    simp only [niValuesAux, Option.some.injEq] at h
    simp [← h]
  | succ k ih =>
    intro l h
    rw [niValuesAux] at h
    rcases hk : niValuesAux records rand k with _ | acc
    · rw [hk] at h
      simp at h
    · rw [hk] at h
      rcases hv : sampleNI (resampleAt records rand k) with _ | v
      · rw [hv] at h
        simp at h
      · rw [hv] at h
        simp only [Option.some.injEq] at h
        rw [← h, List.length_append, ih acc hk]
        simp

/-- C6 (amended): whenever every one of the `N = records.length` resamples
has a nonzero truthy `Dn*Ps/(Ps+Ds)` sum (so that no resample divides by
zero and `_bootstrap` completes, the condition the counterexample shows is
not automatic), the bootstrap collects exactly `N` neutrality-index values
and returns the sorted values at the 0-indexed ranks
`round(0.025*(N-1))` and `round(0.975*(N-1))`, a pair whose lower component
never exceeds its upper component.  The model has no hidden state, so a
fixed injected stream reproduces identical bounds. -/
theorem bootstrap_limits_sorted (records : List CompValues) (rand : ℕ → ℕ) (vals : List ℚ)
    (hne : records ≠ []) (hvals : niValues records rand = some vals) :
    vals.length = records.length ∧
    bootstrapLimits records rand =
      some ((List.insertionSort (· ≤ ·) vals).getD (lowerRank records.length) 0,
        (List.insertionSort (· ≤ ·) vals).getD (upperRank records.length) 0) ∧
    (List.insertionSort (· ≤ ·) vals).getD (lowerRank records.length) 0 ≤
      (List.insertionSort (· ≤ ·) vals).getD (upperRank records.length) 0 := by
  have hlen : vals.length = records.length :=
    niValuesAux_length records rand records.length vals hvals
  have hblim : bootstrapLimits records rand =
      some ((List.insertionSort (· ≤ ·) vals).getD (lowerRank records.length) 0,
        (List.insertionSort (· ≤ ·) vals).getD (upperRank records.length) 0) := by
    rw [bootstrapLimits, hvals]
  refine ⟨hlen, hblim, ?_⟩
  have hn1 : 1 ≤ records.length := List.length_pos.mpr hne
  have hslen : (List.insertionSort (· ≤ ·) vals).length = records.length := by
    rw [List.length_insertionSort, hlen]
  have hup : upperRank records.length < (List.insertionSort (· ≤ ·) vals).length := by
    rw [hslen]
    exact upperRank_lt records.length hn1
  have hlow : lowerRank records.length < (List.insertionSort (· ≤ ·) vals).length :=
    lt_of_le_of_lt (lowerRank_le_upperRank records.length hn1) hup
  rw [List.getD_eq_getElem _ _ hlow, List.getD_eq_getElem _ _ hup]
  exact (List.sorted_insertionSort (· ≤ ·) vals).rel_get_of_le
    (Fin.mk_le_mk.mpr (lowerRank_le_upperRank records.length hn1))

/-- Witness for `bootstrap_limits_sorted`: the single record with components
`X = 2`, `Y = 1` under the constant random stream, whose only resample has
neutrality index 2. -/
theorem bootstrap_limits_sorted_witness :
    ([(2 : ℚ)].length = [CompValues.mk (some 2) (some 1)].length) ∧
    bootstrapLimits [CompValues.mk (some 2) (some 1)] (fun _ => 0) =
      some ((List.insertionSort (· ≤ ·) [(2 : ℚ)]).getD
          (lowerRank [CompValues.mk (some 2) (some 1)].length) 0,
        (List.insertionSort (· ≤ ·) [(2 : ℚ)]).getD
          (upperRank [CompValues.mk (some 2) (some 1)].length) 0) ∧
    (List.insertionSort (· ≤ ·) [(2 : ℚ)]).getD
        (lowerRank [CompValues.mk (some 2) (some 1)].length) 0 ≤
      (List.insertionSort (· ≤ ·) [(2 : ℚ)]).getD
        (upperRank [CompValues.mk (some 2) (some 1)].length) 0 :=
  bootstrap_limits_sorted [CompValues.mk (some 2) (some 1)] (fun _ => 0) [2] (by decide)
    (by norm_num [niValues, niValuesAux, sampleNI, resampleAt, truthySum, List.range_succ,
      List.filterMap_cons, List.filter_cons])

/-- Keys after a dictionary assignment: an old key or the assigned key. -/
theorem mem_sfsKeys_sfsSet {s : Sfs} {k v t : ℕ} (h : t ∈ sfsKeys (sfsSet s k v)) :
    t ∈ sfsKeys s ∨ t = k := by
  unfold sfsSet at h
  split at h
  · simp only [sfsKeys, List.map_map, List.mem_map, Function.comp_apply] at h
    obtain ⟨p, hp, hpt⟩ := h
    by_cases hpk : p.1 = k
    · rw [if_pos hpk] at hpt
      exact Or.inr hpt.symm
    · rw [if_neg hpk] at hpt
      exact Or.inl (List.mem_map.mpr ⟨p, hp, hpt⟩)
  · simp only [sfsKeys, List.map_append, List.mem_append, List.map_cons, List.map_nil,
      List.mem_singleton] at h
    rcases h with h2 | h2
    · exact Or.inl h2
    · exact Or.inr h2

/-- Keys after merging a local spectrum: an old key or a local key. -/
theorem mem_sfsKeys_sfsUpdate {l : Sfs} :
    ∀ {s : Sfs} {t : ℕ}, t ∈ sfsKeys (sfsUpdate s l) → t ∈ sfsKeys s ∨ t ∈ sfsKeys l := by
  induction l with
  | nil =>
    intro s t h
    exact Or.inl h
  | cons p tl ih =>
    intro s t h
    have h2 : t ∈ sfsKeys (sfsUpdate (sfsSet s p.1 (sfsGet s p.1 + p.2)) tl) := h
    rcases ih h2 with h3 | h3
    · rcases mem_sfsKeys_sfsSet h3 with h4 | h4
      · exact Or.inl h4
      · right
        simp [sfsKeys, h4]
    · right
      simp only [sfsKeys, List.map_cons, List.mem_cons]
      exact Or.inr h3

/-- The keys of a local spectrum are the distinct usage counts. -/
theorem sfsKeys_localSfs (vals : List ℕ) : sfsKeys (localSfs vals) = vals.dedup := by
  simp [sfsKeys, localSfs, List.map_map, Function.comp_def]

/-- Looking up a key that occurs in a mapped pair list returns its image. -/
theorem sfsLookup_map_pair (g : ℕ → ℕ) :
    ∀ {l : List ℕ} {t : ℕ}, t ∈ l →
      sfsLookup (l.map (fun a => (a, g a))) t = some (g t) := by
  intro l
  induction l with
  | nil =>
    intro t ht
    cases ht
  | cons a tl ih =>
    intro t ht
    simp only [List.map_cons, sfsLookup]
    by_cases hat : a = t
    · simp [hat]
    · rw [if_neg hat]
      have h2 : t ∈ tl := by
        rcases List.mem_cons.mp ht with h | h
        · exact absurd h.symm hat
        · exact h
      exact ih h2

/-- Looking up a key absent from a mapped pair list fails. -/
theorem sfsLookup_map_pair_of_not_mem (g : ℕ → ℕ) :
    ∀ {l : List ℕ} {t : ℕ}, t ∉ l →
      sfsLookup (l.map (fun a => (a, g a))) t = none := by
  intro l
  induction l with
  | nil =>
    intro t _
    rfl
  | cons a tl ih =>
    intro t ht
    simp only [List.map_cons, sfsLookup]
    have hneg : ¬ a = t := by
      intro h
      rw [← h] at ht
      exact ht (List.mem_cons_self a tl)
    rw [if_neg hneg]
    exact ih (fun h => ht (List.mem_cons_of_mem a h))

/-- Every element is bounded by the running maximum. -/
theorem le_foldr_max : ∀ (l : List ℕ), ∀ x ∈ l, x ≤ l.foldr max 0 := by
  intro l
  induction l with
  | nil =>
    intro x hx
    cases hx
  | cons a tl ih =>
    intro x hx
    rw [List.foldr_cons]
    rcases List.mem_cons.mp hx with h | h
    · rw [h]
      exact le_max_left _ _
    · exact le_trans (ih x h) (le_max_right _ _)

/-- The maximum of a nonempty list of positive naturals is an element. -/
theorem listMax_mem_of_pos (l : List ℕ) (hne : l ≠ []) (hpos : ∀ x ∈ l, 1 ≤ x) :
    listMax l ∈ l := by
  have h : ∀ (l : List ℕ), l.foldr max 0 = 0 ∨ l.foldr max 0 ∈ l := by
    intro l
    induction l with
    | nil => exact Or.inl rfl
    | cons a tl ih =>
      rw [List.foldr_cons]
      rcases ih with h | h
      · rw [h]
        right
        simp
      · rcases max_choice a (tl.foldr max 0) with h2 | h2
        · rw [h2]
          exact Or.inr (List.mem_cons_self a tl)
        · rw [h2]
          exact Or.inr (List.mem_cons_of_mem a h)
  rcases h l with h0 | hmem
  · exfalso
    obtain ⟨x, hx⟩ := List.exists_mem_of_ne_nil l hne
    have := le_foldr_max l x hx
    have := hpos x hx
    omega
  · exact hmem

/-- Every usage count of a site is positive. -/
theorem usageValues_pos (site : List Char) : ∀ x ∈ usageValues site, 1 ≤ x := by
  intro x hx
  obtain ⟨c, hc, rfl⟩ := List.mem_map.mp hx
  exact List.count_pos_iff.mpr (List.mem_dedup.mp hc)

/-- Keys surviving reference removal are usage counts, and a surviving
maximal key means the maximum count occurs at least twice. -/
theorem mem_sfsKeys_removeReference {vals : List ℕ} {t : ℕ}
    (h : t ∈ sfsKeys (removeReference (localSfs vals) (listMax vals))) :
    t ∈ vals.dedup ∧ (t ≠ listMax vals ∨ 2 ≤ vals.count (listMax vals)) := by
  unfold removeReference at h
  split at h
  · simp only [sfsKeys, List.mem_map] at h
    obtain ⟨p, hp, hpt⟩ := h
    have hpf := List.mem_filter.mp hp
    have hkey : t ∈ sfsKeys (localSfs vals) := List.mem_map.mpr ⟨p, hpf.1, hpt⟩
    rw [sfsKeys_localSfs] at hkey
    refine ⟨hkey, Or.inl ?_⟩
    rw [← hpt]
    exact of_decide_eq_true hpf.2
  · rename_i hz
    have href : listMax vals ∈ vals.dedup := by
      by_contra hnot
      apply hz
      have hlook : sfsLookup (localSfs vals) (listMax vals) = none :=
        sfsLookup_map_pair_of_not_mem _ hnot
      simp [sfsGet, hlook]
    have hcnt : 2 ≤ vals.count (listMax vals) := by
      have hlook : sfsLookup (localSfs vals) (listMax vals) = some (vals.count (listMax vals)) :=
        sfsLookup_map_pair _ href
      have hget : sfsGet (localSfs vals) (listMax vals) = vals.count (listMax vals) := by
        simp [sfsGet, hlook]
      rw [hget] at hz
      omega
    rcases mem_sfsKeys_sfsSet h with h2 | h2
    · rw [sfsKeys_localSfs] at h2
      exact ⟨h2, Or.inr hcnt⟩
    · exact ⟨h2 ▸ href, Or.inr hcnt⟩

/-- Every key of the local spectrum of a polymorphic site is a minor-allele
count between 1 and half the number of rows. -/
theorem localSpectrum_site_keys (site : List Char) (hpoly : 1 < site.dedup.length) :
    ∀ t ∈ sfsKeys (removeReference (localSfs (usageValues site)) (listMax (usageValues site))),
      1 ≤ t ∧ t ≤ site.length / 2 := by
  intro t ht
  obtain ⟨hdedup, hdisj⟩ := mem_sfsKeys_removeReference ht
  have htv : t ∈ usageValues site := List.mem_dedup.mp hdedup
  have hsum : (usageValues site).sum = site.length := by
    simpa [usageValues] using List.sum_map_count_dedup_eq_length site
  have hpos := usageValues_pos site
  have hvne : usageValues site ≠ [] := by
    unfold usageValues
    rw [Ne, List.map_eq_nil_iff]
    intro hd
    rw [hd] at hpoly
    simp at hpoly
  have hmax_mem : listMax (usageValues site) ∈ usageValues site :=
    listMax_mem_of_pos _ hvne hpos
  have hle : t ≤ listMax (usageValues site) := le_foldr_max _ t htv
  have herase : t ∈ (usageValues site).erase (listMax (usageValues site)) := by
    rcases hdisj with hne | hcnt
    · exact (List.mem_erase_of_ne hne).mpr htv
    · by_cases hne : t = listMax (usageValues site)
      · rw [hne]
        have hc : 0 < ((usageValues site).erase (listMax (usageValues site))).count
            (listMax (usageValues site)) := by
          rw [List.count_erase_self]
          omega
        exact List.count_pos_iff.mp hc
      · exact (List.mem_erase_of_ne hne).mpr htv
  have hsum2 : listMax (usageValues site) +
      ((usageValues site).erase (listMax (usageValues site))).sum = (usageValues site).sum := by
    have hperm := (List.perm_cons_erase hmax_mem).sum_eq
    rw [List.sum_cons] at hperm
    omega
  have hts : t ≤ ((usageValues site).erase (listMax (usageValues site))).sum :=
    List.single_le_sum (fun x _ => Nat.zero_le x) t herase
  refine ⟨hpos t htv, ?_⟩
  rw [Nat.le_div_iff_mul_le (by norm_num : 0 < 2)]
  omega

/-- The site chosen for the single-site polymorphism is itself polymorphic
and spans all rows. -/
theorem polymorphSite_spec (col : List (List Char))
    (h : sitePoly col 0 = true ∨ sitePoly col 1 = true ∨ sitePoly col 2 = true) :
    1 < (polymorphSite col).dedup.length ∧ (polymorphSite col).length = col.length := by
  unfold polymorphSite
  by_cases h0 : sitePoly col 0 = true
  · rw [if_pos h0]
    exact ⟨of_decide_eq_true h0, by simp [siteAt]⟩
  · rw [if_neg h0]
    by_cases h1 : sitePoly col 1 = true
    · rw [if_pos h1]
      exact ⟨of_decide_eq_true h1, by simp [siteAt]⟩
    · rw [if_neg h1]
      have h2 : sitePoly col 2 = true := by tauto
      exact ⟨of_decide_eq_true h2, by simp [siteAt]⟩

/-- One classifier step preserves the minor-allele-count bound on the keys
of all three spectra. -/
theorem classifyCodon_key_bounds (n : ℕ) (state : ClassifyState) (col : List (List Char))
    (hcol : col.length = n)
    (hs : ∀ t ∈ sfsKeys state.synSfs, 1 ≤ t ∧ t ≤ n / 2)
    (hn : ∀ t ∈ sfsKeys state.nonSynSfs, 1 ≤ t ∧ t ≤ n / 2)
    (hf : ∀ t ∈ sfsKeys state.fourFoldSfs, 1 ≤ t ∧ t ≤ n / 2) :
    (∀ t ∈ sfsKeys (classifyCodon state col).synSfs, 1 ≤ t ∧ t ≤ n / 2) ∧
    (∀ t ∈ sfsKeys (classifyCodon state col).nonSynSfs, 1 ≤ t ∧ t ≤ n / 2) ∧
    (∀ t ∈ sfsKeys (classifyCodon state col).fourFoldSfs, 1 ≤ t ∧ t ≤ n / 2) := by
  have hlocal : (sitePoly col 0 = true ∨ sitePoly col 1 = true ∨ sitePoly col 2 = true) →
      ∀ t ∈ sfsKeys (localSpectrum col), 1 ≤ t ∧ t ≤ n / 2 := by
    intro hp t ht
    obtain ⟨hd, hl⟩ := polymorphSite_spec col hp
    have hres := localSpectrum_site_keys (polymorphSite col) hd t ht
    rw [hl, hcol] at hres
    exact hres
  unfold classifyCodon
  split
  · exact ⟨hs, hn, hf⟩
  · split
    · split
      · exact ⟨hs, hn, hf⟩
      · exact ⟨hs, hn, hf⟩
    · rename_i hmono
      have hp : sitePoly col 0 = true ∨ sitePoly col 1 = true ∨ sitePoly col 2 = true := by
        rcases Bool.eq_false_or_eq_true (sitePoly col 0 || sitePoly col 1 || sitePoly col 2)
          with hb | hb
        · simpa [Bool.or_eq_true, or_assoc] using hb
        · exact absurd (by rw [hb]; rfl) hmono
      split
      · exact ⟨hs, hn, hf⟩
      · split
        · split
          · refine ⟨?_, hn, ?_⟩
            · intro t ht
              rcases mem_sfsKeys_sfsUpdate ht with h | h
              · exact hs t h
              · exact hlocal hp t h
            · intro t ht
              rcases mem_sfsKeys_sfsUpdate ht with h | h
              · exact hf t h
              · exact hlocal hp t h
          · refine ⟨?_, hn, hf⟩
            intro t ht
            rcases mem_sfsKeys_sfsUpdate ht with h | h
            · exact hs t h
            · exact hlocal hp t h
        · split
          · refine ⟨hs, ?_, hf⟩
            intro t ht
            rcases mem_sfsKeys_sfsUpdate ht with h | h
            · exact hn t h
            · exact hlocal hp t h
          · exact ⟨hs, hn, hf⟩

/-- The key bound is an invariant of the whole classification fold. -/
theorem foldl_classifyCodon_key_bounds (n : ℕ) :
    ∀ (cols : List (List (List Char))), (∀ col ∈ cols, col.length = n) →
      ∀ state : ClassifyState,
      (∀ t ∈ sfsKeys state.synSfs, 1 ≤ t ∧ t ≤ n / 2) →
      (∀ t ∈ sfsKeys state.nonSynSfs, 1 ≤ t ∧ t ≤ n / 2) →
      (∀ t ∈ sfsKeys state.fourFoldSfs, 1 ≤ t ∧ t ≤ n / 2) →
      (∀ t ∈ sfsKeys (cols.foldl classifyCodon state).synSfs, 1 ≤ t ∧ t ≤ n / 2) ∧
      (∀ t ∈ sfsKeys (cols.foldl classifyCodon state).nonSynSfs, 1 ≤ t ∧ t ≤ n / 2) ∧
      (∀ t ∈ sfsKeys (cols.foldl classifyCodon state).fourFoldSfs, 1 ≤ t ∧ t ≤ n / 2) := by
  intro cols
  induction cols with
  | nil =>
    intro _ state hs hn hf
    exact ⟨hs, hn, hf⟩
  | cons c tl ih =>
    intro hcols state hs hn hf
    rw [List.foldl_cons]
    have hc := classifyCodon_key_bounds n state c (hcols c (List.mem_cons_self c tl)) hs hn hf
    exact ih (fun col hcol => hcols col (List.mem_cons_of_mem c hcol)) _ hc.1 hc.2.1 hc.2.2

/-- C8: every key of each of the three site-frequency spectra returned by
the classifier is a minor-allele count `k` with `1 <= k <= n / 2` for `n`
rows, and in the reference-removal step the bucket at the reference count
always exists with a value of at least one, so the decrement never
underflows or touches a missing bucket. -/
theorem sfs_minor_allele_keys_bounded (rows : List (List Char)) :
    (∀ t ∈ sfsKeys (performCalculations rows).synSfs, 1 ≤ t ∧ t ≤ rows.length / 2) ∧
    (∀ t ∈ sfsKeys (performCalculations rows).nonSynSfs, 1 ≤ t ∧ t ≤ rows.length / 2) ∧
    (∀ t ∈ sfsKeys (performCalculations rows).fourFoldSfs, 1 ≤ t ∧ t ≤ rows.length / 2) ∧
    (∀ site : List Char, site ≠ [] →
      ∃ v, sfsLookup (localSfs (usageValues site)) (listMax (usageValues site)) = some v ∧
        1 ≤ v) := by
  have hcols : ∀ col ∈ codonColumns rows, col.length = rows.length := by
    intro col hcol
    obtain ⟨k, _, rfl⟩ := List.mem_map.mp hcol
    simp
  have hmain := foldl_classifyCodon_key_bounds rows.length (codonColumns rows) hcols initState
    (by intro t ht; cases ht) (by intro t ht; cases ht) (by intro t ht; cases ht)
  refine ⟨hmain.1, hmain.2.1, hmain.2.2, ?_⟩
  intro site hne
  have hvne : usageValues site ≠ [] := by
    unfold usageValues
    rw [Ne, List.map_eq_nil_iff]
    intro hd
    exact hne ((List.dedup_eq_nil site).mp hd)
  have hmem : listMax (usageValues site) ∈ usageValues site :=
    listMax_mem_of_pos _ hvne (usageValues_pos site)
  have hdd : listMax (usageValues site) ∈ (usageValues site).dedup := List.mem_dedup.mpr hmem
  refine ⟨(usageValues site).count (listMax (usageValues site)), ?_, ?_⟩
  · exact sfsLookup_map_pair _ hdd
  · exact List.count_pos_iff.mpr hmem

/-- Witness for `sfs_minor_allele_keys_bounded`: the reference bucket of the
two-row site `A` / `C` exists with value 1 (both alleles occur once, the
reference is one of them). -/
theorem sfs_minor_allele_keys_bounded_witness :
    ∃ v, sfsLookup (localSfs (usageValues ['A', 'C'])) (listMax (usageValues ['A', 'C'])) =
        some v ∧ 1 ≤ v :=
  (sfs_minor_allele_keys_bounded [['A'], ['C']]).2.2.2 ['A', 'C'] (by decide)
